import Mathlib

/-!
Verification of core components of a Puppet-language compiler
(lexer heredocs, registry node matching, evaluation context, catalog
finalization, runtime operators and the value formatter), shallowly
embedded in Lean 4.  Each definition mirrors one function of the C++
source; theorems settle the specified behaviour of those functions.
-/

namespace Multiply

/-- `std::numeric_limits<int64_t>::max()` as used by the multiply operator. -/
def INT64_MAX : Int := 2 ^ 63 - 1

/-- `std::numeric_limits<int64_t>::min()` as used by the multiply operator. -/
def INT64_MIN : Int := -(2 ^ 63)

/-- An evaluation error created by `evaluator.create_exception(position, message)`:
it carries the source position passed in (the left operand's position for the
arithmetic checks) together with the message. -/
structure EvalError where
  position : Nat
  message : String
deriving DecidableEq, Repr

/-- `multiply_visitor::operator()(int64_t, int64_t)` from
`src/lib/src/runtime/operators/multiply.cc`: 64-bit signed multiplication with
overflow/underflow checks.  C++ integer division truncates toward zero, which
is `Int.tdiv`. -/
def multiply_int64 (left_position : Nat) (left right : Int) : Except EvalError Int :=
  if right > 0 then
    if left > INT64_MAX.tdiv right then
      .error ⟨left_position,
        "multiplication of " ++ toString left ++ " and " ++ toString right ++
        " results in an arithmetic overflow."⟩
    else if left < INT64_MIN.tdiv right then
      .error ⟨left_position,
        "multiplication of " ++ toString left ++ " and " ++ toString right ++
        " results in an arithmetic underflow."⟩
    else
      .ok (left * right)
  else if right < -1 then
    if left > INT64_MIN.tdiv right then
      .error ⟨left_position,
        "multiplication of " ++ toString left ++ " and " ++ toString right ++
        " results in an arithmetic underflow."⟩
    else if left < INT64_MAX.tdiv right then
      .error ⟨left_position,
        "multiplication of " ++ toString left ++ " and " ++ toString right ++
        " results in an arithmetic overflow."⟩
    else
      .ok (left * right)
  else if right = -1 then
    if left = INT64_MIN then
      .error ⟨left_position,
        "multiplication of " ++ toString left ++ " and " ++ toString right ++
        " results in an arithmetic overflow."⟩
    else
      .ok (left * right)
  else
    .ok (left * right)

/-- The product is representable in a 64-bit signed integer. -/
def in_int64_range (x : Int) : Prop := INT64_MIN ≤ x ∧ x ≤ INT64_MAX

instance (x : Int) : Decidable (in_int64_range x) := by
  unfold in_int64_range; infer_instance

theorem tdiv_pos_gt_iff (a l r : Int) (hr : 0 < r) (ha : 0 ≤ a) :
    a.tdiv r < l ↔ a < l * r := by
  rw [Int.tdiv_eq_ediv ha (le_of_lt hr)]
  exact Int.ediv_lt_iff_lt_mul hr

theorem tdiv_pos_le_iff (a l r : Int) (hr : 0 < r) (ha : 0 ≤ a) :
    l ≤ a.tdiv r ↔ l * r ≤ a := by
  rw [Int.tdiv_eq_ediv ha (le_of_lt hr)]
  exact Int.le_ediv_iff_mul_le hr

theorem neg_tdiv_pos_lt_iff (a l r : Int) (hr : 0 < r) (ha : 0 ≤ a) :
    l < (-a).tdiv r ↔ l * r < -a := by
  rw [Int.neg_tdiv]
  constructor
  · intro h
    have h1 : a.tdiv r < -l := by omega
    have := (tdiv_pos_gt_iff a (-l) r hr ha).mp h1
    nlinarith
  · intro h
    have h1 : a < (-l) * r := by nlinarith
    have := (tdiv_pos_gt_iff a (-l) r hr ha).mpr h1
    omega

theorem neg_tdiv_pos_ge_iff (a l r : Int) (hr : 0 < r) (ha : 0 ≤ a) :
    (-a).tdiv r ≤ l ↔ -a ≤ l * r := by
  rw [Int.neg_tdiv]
  constructor
  · intro h
    have h1 : -l ≤ a.tdiv r := by omega
    have := (tdiv_pos_le_iff a (-l) r hr ha).mp h1
    nlinarith
  · intro h
    have h1 : (-l) * r ≤ a := by nlinarith
    have := (tdiv_pos_le_iff a (-l) r hr ha).mpr h1
    omega

/-- C9: for 64-bit signed integer operands, the multiply operator raises an
evaluation error carrying the source position exactly when the mathematical
product is not representable in a 64-bit signed integer, and otherwise returns
the exact product. -/
theorem multiply_int64_correct (pos : Nat) (l r : Int)
    (hl : in_int64_range l) (hr : in_int64_range r) :
    (in_int64_range (l * r) → multiply_int64 pos l r = .ok (l * r)) ∧
    (¬ in_int64_range (l * r) →
      ∃ e : EvalError, multiply_int64 pos l r = .error e ∧ e.position = pos) := by
  have hmaxnn : (0 : Int) ≤ INT64_MAX := by unfold INT64_MAX; positivity
  have hminmax : INT64_MIN = -(INT64_MAX + 1) := by unfold INT64_MIN INT64_MAX; ring
  rcases lt_trichotomy r 0 with hneg | hzero | hpos
  · -- r < 0
    rcases eq_or_lt_of_le (show r ≤ -1 by omega) with hm1 | hlt
    · -- r = -1
      subst hm1
      unfold multiply_int64
      simp only [show ¬ ((-1 : Int) > 0) by norm_num, if_false,
        show ¬ ((-1 : Int) < -1) by norm_num, if_true, if_pos rfl]
      constructor
      · intro hin
        have : l ≠ INT64_MIN := by
          intro h; subst h
          unfold in_int64_range INT64_MIN INT64_MAX at hin
          omega
        rw [if_neg this]
      · intro hout
        have : l = INT64_MIN := by
          unfold in_int64_range INT64_MIN INT64_MAX at hout hl hr
          unfold INT64_MIN
          have hm : l * -1 = -l := by ring
          rw [hm] at hout
          omega
        rw [if_pos this]
        exact ⟨_, rfl, rfl⟩
    · -- r < -1
      have hrgt : ¬ (r > 0) := by omega
      have hrlt : r < -1 := hlt
      set s : Int := -r with hs
      have hspos : 0 < s := by omega
      have e1 : INT64_MIN.tdiv r = (2 ^ 63 : Int).tdiv s := by
        have : r = -s := by omega
        rw [this, Int.tdiv_neg, show INT64_MIN = -(2 ^ 63 : Int) from rfl, Int.neg_tdiv]
        ring
      have e2 : INT64_MAX.tdiv r = -(INT64_MAX.tdiv s) := by
        have : r = -s := by omega
        rw [this, Int.tdiv_neg]
      have p63nn : (0 : Int) ≤ 2 ^ 63 := by positivity
      -- underflow condition
      have cu : INT64_MIN.tdiv r < l ↔ l * r < INT64_MIN := by
        rw [e1, tdiv_pos_gt_iff _ _ _ hspos p63nn]
        constructor
        · intro h
          show l * r < -(2 ^ 63)
          nlinarith
        · intro h
          have : l * r < -(2 ^ 63) := h
          nlinarith
      -- overflow condition
      have co : l < INT64_MAX.tdiv r ↔ INT64_MAX < l * r := by
        rw [e2]
        constructor
        · intro h
          have h1 : INT64_MAX.tdiv s < -l := by omega
          have := (tdiv_pos_gt_iff INT64_MAX (-l) s hspos hmaxnn).mp h1
          nlinarith
        · intro h
          have h1 : INT64_MAX < (-l) * s := by nlinarith
          have := (tdiv_pos_gt_iff INT64_MAX (-l) s hspos hmaxnn).mpr h1
          omega
      unfold multiply_int64
      rw [if_neg hrgt, if_pos hrlt]
      constructor
      · intro hin
        have h1 : ¬ (INT64_MIN.tdiv r < l) := by
          intro hc
          have hcu := cu.mp hc
          have := hin.1
          omega
        have h2 : ¬ (l < INT64_MAX.tdiv r) := by
          intro hc
          have hco := co.mp hc
          have := hin.2
          omega
        rw [if_neg h1, if_neg h2]
      · intro hout
        unfold in_int64_range at hout
        push_neg at hout
        by_cases h1 : INT64_MIN.tdiv r < l
        · rw [if_pos h1]; exact ⟨_, rfl, rfl⟩
        · rw [if_neg h1]
          have h2 : l < INT64_MAX.tdiv r := by
            rw [co]
            rcases lt_or_le INT64_MAX (l * r) with h | h
            · exact h
            · exfalso
              have hge : INT64_MIN ≤ l * r := by
                rw [not_lt] at h1
                by_contra hc
                rw [not_le] at hc
                exact absurd (cu.mpr hc) (by omega)
              exact absurd (hout hge) (by omega)
          rw [if_pos h2]; exact ⟨_, rfl, rfl⟩
  · -- r = 0
    subst hzero
    have hin : in_int64_range (l * 0) := by
      unfold in_int64_range INT64_MIN INT64_MAX
      norm_num
    constructor
    · intro _
      unfold multiply_int64
      norm_num
    · intro hout
      exact absurd hin hout
  · -- r > 0
    have co : INT64_MAX.tdiv r < l ↔ INT64_MAX < l * r :=
      tdiv_pos_gt_iff INT64_MAX l r hpos hmaxnn
    have cu : l < INT64_MIN.tdiv r ↔ l * r < INT64_MIN := by
      have : INT64_MIN = -(2 ^ 63 : Int) := rfl
      rw [this]
      exact neg_tdiv_pos_lt_iff (2 ^ 63) l r hpos (by positivity)
    unfold multiply_int64
    rw [if_pos hpos]
    constructor
    · intro hin
      rw [if_neg (by intro hc; exact absurd (co.mp hc) (by have := hin.2; omega)),
          if_neg (by intro hc; exact absurd (cu.mp hc) (by have := hin.1; omega))]
    · intro hout
      unfold in_int64_range at hout
      push_neg at hout
      by_cases h1 : INT64_MAX.tdiv r < l
      · rw [if_pos h1]; exact ⟨_, rfl, rfl⟩
      · rw [if_neg h1]
        have h2 : l < INT64_MIN.tdiv r := by
          rw [cu]
          rcases lt_or_le (l * r) INT64_MIN with h | h
          · exact h
          · exfalso
            have hle : l * r ≤ INT64_MAX := by
              rw [not_lt] at h1
              by_contra hc
              rw [not_le] at hc
              exact absurd (co.mpr hc) (by omega)
            exact absurd (hout h) (by omega)
        rw [if_pos h2]; exact ⟨_, rfl, rfl⟩

/-- Witness for C9 at a concrete input. -/
theorem multiply_int64_correct_witness :
    multiply_int64 7 2 3 = .ok 6 ∧ in_int64_range (2 * 3) := by
  have h := multiply_int64_correct 7 2 3 (by decide) (by decide)
  refine ⟨?_, by decide⟩
  have h1 := h.1 (by decide)
  simpa using h1

end Multiply

namespace Formatter

/-- The two's-complement bit pattern of a 64-bit signed integer, i.e. the result
of `static_cast<uint64_t>(value)`. -/
def toUInt64Bits (value : Int) : Nat := (value % (2 ^ 64)).toNat

/-- A Unicode scalar value as checked by `utf8::utf32to8`: at most `U+10FFFF`
and not a surrogate. -/
def valid_code_point (cp : Nat) : Bool :=
  decide (cp < 0x110000) && !(decide (0xD800 ≤ cp) && decide (cp ≤ 0xDFFF))

/-- The `'c'` conversion of `format_visitor::operator()(int64_t)` from
`src/lib/src/runtime/utility/formatter.cc` (lines 142-168).  The C++ computes
`high = uint32(uint64(value) >> 32)` and `low = uint32(uint64(value) & (1ull >> 32))`
(note: the mask is literally `1ull >> 32`), errors when `high` is non-zero, and
otherwise feeds `low` to `utf8::utf32to8`, reporting an invalid code point as a
format error.  The successful output is returned as the list of produced code
points. -/
def format_int64_c (value : Int) : Except String (List Nat) :=
  let high : Nat := toUInt64Bits value >>> 32
  let low : Nat := toUInt64Bits value &&& (1 >>> 32)
  if high ≠ 0 then
    .error ("numeric value '" ++ toString value ++
            "' exceeds the range of a Unicode code point.")
  else if valid_code_point low then
    .ok [low]
  else
    .error ("numeric value '" ++ toString value ++
            "' is not a valid Unicode code point.")

/-- C2: evaluation of the source's `'c'` conversion at concrete inputs.  The
low dword is computed by masking with `1ull >> 32`, which is `0`, so the
conversion outputs the code point `U+0000` for the in-range value `65` instead
of `U+0041`, and accepts `0x110000` (not a Unicode code point) without error. -/
theorem format_int64_c_failing :
    Formatter.format_int64_c 65 = .ok [0] ∧
    Formatter.format_int64_c 65 ≠ .ok [65] ∧
    Formatter.format_int64_c 0x110000 = .ok [0] := by
  refine ⟨rfl, fun h => absurd (Except.ok.inj h) (by decide), rfl⟩

end Formatter

namespace Stack

/-- `MAX_STACK_DEPTH` from src/lib/src/compiler/evaluation/context.cc line 16:
a file-local constant. -/
def MAX_STACK_DEPTH : Nat := 1000

/-- A `stack_frame` as stored on the evaluation context's call stack; only the
name is relevant to the depth-limit behaviour. -/
structure StackFrame where
  name : String
deriving DecidableEq, Repr

/-- The push performed by `scoped_stack_frame::scoped_stack_frame`: raises an
evaluation error when the call stack holds more than `MAX_STACK_DEPTH` frames,
otherwise appends the frame (`_call_stack.emplace_back`). -/
def push_frame (stack : List StackFrame) (frame : StackFrame) :
    Except String (List StackFrame) :=
  if stack.length > MAX_STACK_DEPTH then
    .error ("cannot call '" ++ frame.name ++ "': maximum stack depth reached.")
  else
    .ok (stack ++ [frame])

/-- The pop performed by `scoped_stack_frame::~scoped_stack_frame`
(`_call_stack.pop_back`). -/
def pop_frame (stack : List StackFrame) : List StackFrame := stack.dropLast

/-- The RAII discipline of `scoped_stack_frame`: the frame is pushed on scope
entry and popped when the scope exits, also when the body exits with an error;
when the push itself fails nothing was pushed and the stack is unchanged. -/
def with_frame {α : Type} (stack : List StackFrame) (frame : StackFrame)
    (body : List StackFrame → Except String α × List StackFrame) :
    Except String α × List StackFrame :=
  match push_frame stack frame with
  | .error e => (.error e, stack)
  | .ok pushed =>
    let r := body pushed
    (r.1, pop_frame r.2)

/-- Call stacks reachable from the empty stack through pushes and pops. -/
inductive Reachable : List StackFrame → Prop where
  | nil : Reachable []
  | push {s s' : List StackFrame} {f : StackFrame} :
      Reachable s → push_frame s f = .ok s' → Reachable s'
  | pop {s : List StackFrame} : Reachable s → Reachable (pop_frame s)

theorem push_frame_ok_iff (s : List StackFrame) (f : StackFrame) (s' : List StackFrame) :
    push_frame s f = .ok s' ↔ s.length ≤ MAX_STACK_DEPTH ∧ s' = s ++ [f] := by
  unfold push_frame
  split
  · rename_i h
    constructor
    · intro hc; cases hc
    · intro hc; omega
  · rename_i h
    constructor
    · intro hc
      exact ⟨by omega, (Except.ok.inj hc).symm⟩
    · rintro ⟨-, rfl⟩
      rfl

/-- C3 counterexample: a call stack of 1001 frames is reachable, so the depth
does exceed 1000. -/
theorem call_stack_depth_exceeds_1000 :
    Reachable (List.replicate 1001 (⟨"f"⟩ : StackFrame)) ∧
    (List.replicate 1001 (⟨"f"⟩ : StackFrame)).length > 1000 := by
  have key : ∀ n, n ≤ 1001 → Reachable (List.replicate n (⟨"f"⟩ : StackFrame)) := by
    intro n
    induction n with
    | zero => intro _; exact .nil
    | succ k ih =>
      intro hk
      have hr := ih (by omega)
      refine Reachable.push (f := ⟨"f"⟩) hr ?_
      rw [push_frame_ok_iff]
      refine ⟨by simp only [List.length_replicate, MAX_STACK_DEPTH]; omega, ?_⟩
      rw [List.replicate_succ' ]
  exact ⟨key 1001 (by omega), by simp only [List.length_replicate]; omega⟩

/-- C3 (amended): the call-stack depth never exceeds 1001; a push onto a stack
holding more than `MAX_STACK_DEPTH` (1000) frames raises an evaluation error
instead of growing the stack; a push onto a smaller stack appends the frame;
and a pushed frame is popped when its scope exits, also on the error path. -/
theorem call_stack_discipline (s : List StackFrame) (f : StackFrame) :
    (Reachable s → s.length ≤ MAX_STACK_DEPTH + 1) ∧
    (s.length > MAX_STACK_DEPTH →
      push_frame s f = .error ("cannot call '" ++ f.name ++ "': maximum stack depth reached.")) ∧
    (s.length ≤ MAX_STACK_DEPTH → push_frame s f = .ok (s ++ [f])) ∧
    (∀ (body : List StackFrame → Except String Unit × List StackFrame),
      (∀ st, (body st).2 = st) → (with_frame s f body).2 = s) := by
  refine ⟨?_, ?_, ?_, ?_⟩
  · intro h
    induction h with
    | nil => simp
    | push hr hp ih =>
      rw [push_frame_ok_iff] at hp
      obtain ⟨hlen, rfl⟩ := hp
      simp
      omega
    | pop hr ih =>
      unfold pop_frame
      rw [List.length_dropLast]
      omega
  · intro h
    unfold push_frame
    rw [if_pos h]
  · intro h
    unfold push_frame
    rw [if_neg (by omega)]
  · intro body hbal
    unfold with_frame
    by_cases h : s.length > MAX_STACK_DEPTH
    · rw [show push_frame s f = .error ("cannot call '" ++ f.name ++ "': maximum stack depth reached.") from by unfold push_frame; rw [if_pos h]]
    · have := (push_frame_ok_iff s f (s ++ [f])).mpr ⟨by omega, rfl⟩
      rw [this]
      simp only [hbal]
      unfold pop_frame
      simp

/-- Witness for C3's amended theorem at concrete inputs. -/
theorem call_stack_discipline_witness :
    push_frame [] ⟨"x"⟩ = .ok [⟨"x"⟩] ∧
    ([] : List StackFrame).length ≤ MAX_STACK_DEPTH := by
  refine ⟨?_, by decide⟩
  have h := (call_stack_discipline [] ⟨"x"⟩).2.2.1 (by decide)
  simpa using h

end Stack

namespace Finalize

/-- `max_iterations` from `context::finalize`. -/
def max_iterations : Nat := 1000

/-- The operations `context::finalize` performs each pass, abstracted over the
evaluation state: `collect` runs every collector once, `done` is the exit test
(`index >= _defined_types.size()` and every tracked virtualized defined type is
still virtual), `evaluate` is `evaluate_defined_types`. -/
structure FinalizeEnv (W : Type) where
  collect : W → W
  done : W → Bool
  evaluate : W → W

/-- The fixed-point loop of `context::finalize` (lines 862-885): run all
collectors, exit when nothing is left to do, otherwise evaluate defined types
and raise the max-iterations error when the iteration counter reaches
`max_iterations`. -/
def finalize_loop {W : Type} (env : FinalizeEnv W) (w : W) (iteration : Nat) :
    Except String W :=
  if env.done (env.collect w) then .ok (env.collect w)
  else if iteration ≥ max_iterations then
    .error "maximum defined type evaluations exceeded: a defined type may be infinitely recursive."
  else finalize_loop env (env.evaluate (env.collect w)) (iteration + 1)
termination_by max_iterations - iteration
decreasing_by
  simp_wf
  omega

/-- The number of passes (collector runs) the loop performs, for the same
recursion. -/
def finalize_passes {W : Type} (env : FinalizeEnv W) (w : W) (iteration : Nat) : Nat :=
  if env.done (env.collect w) then 1
  else if iteration ≥ max_iterations then 1
  else 1 + finalize_passes env (env.evaluate (env.collect w)) (iteration + 1)
termination_by max_iterations - iteration
decreasing_by
  simp_wf
  omega

theorem finalize_loop_terminates {W : Type} (env : FinalizeEnv W) (w : W) (iteration : Nat)
    (hle : iteration ≤ max_iterations) :
    ((∃ w', finalize_loop env w iteration = .ok w') ∨
      finalize_loop env w iteration =
        .error "maximum defined type evaluations exceeded: a defined type may be infinitely recursive.") ∧
    finalize_passes env w iteration ≤ max_iterations + 1 - iteration := by
  rw [finalize_loop, finalize_passes]
  by_cases hd : env.done (env.collect w) = true
  · rw [if_pos hd, if_pos hd]
    exact ⟨.inl ⟨_, rfl⟩, by omega⟩
  · rw [if_neg hd, if_neg hd]
    by_cases h2 : iteration ≥ max_iterations
    · rw [if_pos h2, if_pos h2]
      exact ⟨.inr rfl, by omega⟩
    · rw [if_neg h2, if_neg h2]
      have ih := finalize_loop_terminates env (env.evaluate (env.collect w)) (iteration + 1) (by omega)
      exact ⟨ih.1, by omega⟩
termination_by max_iterations - iteration
decreasing_by
  simp_wf
  omega

/-- C4: finalization's fixed-point loop always terminates: it either converges
to a final state or raises the specific max-iterations evaluation error, and it
performs at most `max_iterations + 1` passes over the collectors and deferred
defined types, whatever the collectors and defined-type evaluations do. -/
theorem finalize_terminates {W : Type} (env : FinalizeEnv W) (w : W) :
    ((∃ w', finalize_loop env w 0 = .ok w') ∨
      finalize_loop env w 0 =
        .error "maximum defined type evaluations exceeded: a defined type may be infinitely recursive.") ∧
    finalize_passes env w 0 ≤ max_iterations + 1 := by
  have h := finalize_loop_terminates env w 0 (Nat.zero_le _)
  exact ⟨h.1, by have := h.2; omega⟩

end Finalize

namespace Compiler

/-- A runtime value, reduced to the variants the catalog machinery inspects. -/
inductive Value where
  | undef
  | boolean (b : Bool)
  | integer (i : Int)
  | str (s : String)
  | arr (elems : List Value)

/-- The type-name a value reports in diagnostics. -/
def Value.infer_name : Value → String
  | .undef => "Undef"
  | .boolean _ => "Boolean"
  | .integer _ => "Integer"
  | .str _ => "String"
  | .arr _ => "Array"

/-- `ast::context` reduced to the data used in diagnostics: source path and line. -/
structure SourceContext where
  path : String
  line : Nat
deriving DecidableEq, Repr

/-- `types::resource`: a resource-type name and title; the catalog identity. -/
structure ResourceType where
  type_name : String
  title : String
deriving DecidableEq, Repr

/-- Modelled from the spec: the rendering of a `types::resource` as
`Type[title]` (the printing code is not under src/). -/
def ResourceType.render (t : ResourceType) : String :=
  t.type_name.capitalize ++ "[" ++ t.title ++ "]"

/-- A resource attribute: name, value and the contexts where name and value
were written. -/
structure Attribute where
  name : String
  value : Value
  name_context : SourceContext
  value_context : SourceContext

/-- A declared resource: identity, containing resource, virtualization state
and attributes. -/
structure Resource where
  type : ResourceType
  container : Option ResourceType
  virtualized : Bool
  attributes : List Attribute

/-- Modelled from the spec: `resource::get` looks an attribute up by name (the
attribute table is an ordered map keyed by name). -/
def Resource.get (r : Resource) (name : String) : Option Attribute :=
  r.attributes.find? (fun a => a.name == name)

/-- Modelled from the spec: `resource::set` replaces (or adds) the attribute
with the given name. -/
def Resource.set (r : Resource) (a : Attribute) : Resource :=
  { r with attributes := r.attributes.filter (fun b => b.name != a.name) ++ [a] }

/-- Modelled from the spec: `resource::append` appends to an array-valued
attribute (`+>` is meaningful on arrays); otherwise the attribute is set. -/
def Resource.append (r : Resource) (a : Attribute) : Resource :=
  match r.get a.name with
  | some previous =>
    match previous.value with
    | .arr elems =>
      match a.value with
      | .arr more => r.set { a with value := .arr (elems ++ more) }
      | v => r.set { a with value := .arr (elems ++ [v]) }
    | _ => r.set a
  | none => r.set a

/-- The catalog: the resource store plus recorded relationship edges. -/
structure Catalog where
  resources : List Resource
  relationships : List (ResourceType × ResourceType)

/-- Modelled from the spec: `catalog::find` returns the resource with the given
identity, of which there is at most one. -/
def Catalog.find (c : Catalog) (t : ResourceType) : Option Resource :=
  c.resources.find? (fun r => r.type == t)

/-- Modelled from the spec: `catalog::add` appends a new resource (the callers
verified here only add after `find` returned none). -/
def Catalog.add (c : Catalog) (r : Resource) : Catalog :=
  { c with resources := c.resources ++ [r] }

/-- Modelled from the spec: `catalog::relate` records a relationship edge. -/
def Catalog.relate (c : Catalog) (source target : ResourceType) : Catalog :=
  { c with relationships := c.relationships ++ [(source, target)] }

/-- Writing a modified resource back into the store (the C++ mutates the
resource in place through a pointer; the identity is unchanged). -/
def Catalog.update (c : Catalog) (r : Resource) : Catalog :=
  { c with resources := c.resources.map (fun x => if x.type == r.type then r else x) }

/-- `ast::attribute_operator`. -/
inductive AttributeOperator where
  | assignment
  | append
deriving DecidableEq, Repr

/-- An evaluation scope: a parent chain where each scope may have an associated
resource (`evaluation::scope`). -/
inductive Scope where
  | top (resource : Option ResourceType)
  | child (parent : Scope) (resource : Option ResourceType)
deriving DecidableEq, Repr

/-- The parent of a scope, if any. -/
def Scope.parentScope : Scope → Option Scope
  | .top _ => none
  | .child p _ => some p

/-- The ancestor walk of `resource_override::evaluate` (context.cc lines
206-218): visit each ancestor that itself has a parent (the top scope is never
examined) and look for an associated resource equal to the overridden
resource's container. -/
def scope_walk (container : Option ResourceType) : Scope → Bool
  | .top _ => false
  | .child p r =>
    (match r, container with
     | some rr, some c => rr == c
     | _, _ => false) || scope_walk container p

/-- Whether the override may modify already-set attributes: no scope means yes;
otherwise walk the parents of the override's scope. -/
def override_allowed (container : Option ResourceType) : Option Scope → Bool
  | none => true
  | some s =>
    match s.parentScope with
    | none => false
    | some p => scope_walk container p

/-- `resource_override` (context.cc lines 153-166): the target resource type,
the override's source context, the attribute operations, and the scope the
override was written in. -/
structure ResourceOverride where
  type : ResourceType
  context : SourceContext
  attributes : List (AttributeOperator × Attribute)
  scope : Option Scope

/-- The action word used in the override conflict message. -/
def conflict_action (oper : AttributeOperator) (a : Attribute) : String :=
  match oper with
  | .assignment =>
    match a.value with
    | .undef => "remove"
    | _ => "set"
  | .append => "append"

/-- Applying the override's attribute operations to the resource (the final
loop of `resource_override::evaluate`, context.cc lines 257-271). -/
def resource_override_apply (ov : ResourceOverride) (resource : Resource) : Resource :=
  ov.attributes.foldl
    (fun r pa =>
      match pa.1 with
      | .assignment => r.set pa.2
      | .append => r.append pa.2)
    resource

/-- `resource_override::evaluate` (context.cc lines 188-272): error when the
target resource does not exist; nothing to do when the override carries no
attributes; when the override's scope does not contain the resource, the first
attribute that was already set yields a conflict error; otherwise the attribute
operations are applied. -/
def resource_override_evaluate (ov : ResourceOverride) (catalog : Catalog) :
    Except String Catalog :=
  match catalog.find ov.type with
  | none =>
    .error ("resource " ++ ov.type.render ++ " does not exist in the catalog.")
  | some resource =>
    if ov.attributes.isEmpty then
      .ok catalog
    else if override_allowed resource.container ov.scope then
      .ok (catalog.update (resource_override_apply ov resource))
    else
      match ov.attributes.findSome? (fun pa =>
          (resource.get pa.2.name).map (fun previous => (pa.1, pa.2, previous))) with
      | some (oper, attr, previous) =>
        .error ("cannot " ++ conflict_action oper attr ++ " attribute '" ++
                attr.name ++ "' from resource " ++ resource.type.render ++
                " that was previously set at " ++ previous.name_context.path ++ ":" ++
                toString previous.name_context.line ++ ".")
      | none =>
        .ok (catalog.update (resource_override_apply ov resource))

/-- The override phase at the end of `context::finalize` (context.cc lines
896-900): every override still pending is evaluated against the catalog. -/
def evaluate_remaining_overrides (overrides : List ResourceOverride) (catalog : Catalog) :
    Except String Catalog :=
  overrides.foldlM (fun c ov => resource_override_evaluate ov c) catalog

theorem set_type (r : Resource) (a : Attribute) : (r.set a).type = r.type := rfl

theorem append_type (r : Resource) (a : Attribute) : (r.append a).type = r.type := by
  unfold Resource.append
  split <;> try rfl
  split <;> try rfl
  split <;> rfl

theorem apply_type (ov : ResourceOverride) (r : Resource) :
    (resource_override_apply ov r).type = r.type := by
  unfold resource_override_apply
  generalize ov.attributes = attrs
  induction attrs generalizing r with
  | nil => rfl
  | cons pa rest ih =>
    rw [List.foldl_cons]
    rw [ih]
    cases h : pa.1 <;> simp only [h]
    · exact set_type r pa.2
    · exact append_type r pa.2

theorem find_update_none (c : Catalog) (r : Resource) (t : ResourceType)
    (h : c.find t = none) (hrt : r.type ≠ t) : (c.update r).find t = none := by
  unfold Catalog.find at *
  unfold Catalog.update
  rw [List.find?_eq_none] at *
  intro x hx
  simp only [List.mem_map] at hx
  obtain ⟨y, hy, rfl⟩ := hx
  by_cases hyt : y.type == r.type
  · rw [if_pos hyt]
    simp only [beq_iff_eq]
    exact hrt
  · rw [if_neg hyt]
    exact h y hy

theorem found_type_ne (cat : Catalog) (t t' : ResourceType) (resource : Resource)
    (hf : cat.find t' = some resource) (hmiss : cat.find t = none) :
    resource.type ≠ t := by
  intro hc
  unfold Catalog.find at hf hmiss
  rw [List.find?_eq_none] at hmiss
  have hmem := List.mem_of_find?_eq_some hf
  have := hmiss resource hmem
  rw [hc] at this
  simp at this

theorem evaluate_preserves_missing (ov : ResourceOverride) (cat cat' : Catalog)
    (h : resource_override_evaluate ov cat = .ok cat') (t : ResourceType)
    (hmiss : cat.find t = none) : cat'.find t = none := by
  unfold resource_override_evaluate at h
  split at h
  · exact Except.noConfusion h
  · rename_i resource hf
    split at h
    · cases h
      exact hmiss
    · split at h
      · cases h
        apply find_update_none _ _ _ hmiss
        rw [apply_type]
        exact found_type_ne cat t ov.type resource hf hmiss
      · split at h
        · exact Except.noConfusion h
        · cases h
          apply find_update_none _ _ _ hmiss
          rw [apply_type]
          exact found_type_ne cat t ov.type resource hf hmiss

/-- C1 (amended): an override whose target resource was never declared is not
silently dropped at finalization: evaluating the remaining overrides raises an
evaluation error whenever some pending override's target is missing from the
catalog. -/
theorem unresolved_override_errors (overrides : List ResourceOverride) (catalog : Catalog)
    (h : ∃ ov ∈ overrides, catalog.find ov.type = none) :
    ∃ msg, evaluate_remaining_overrides overrides catalog = .error msg := by
  induction overrides generalizing catalog with
  | nil => obtain ⟨ov, hov, -⟩ := h; cases hov
  | cons ov rest ih =>
    unfold evaluate_remaining_overrides at *
    rw [List.foldlM_cons]
    cases he : resource_override_evaluate ov catalog with
    | error e =>
      exact ⟨e, rfl⟩
    | ok cat' =>
      obtain ⟨ov', hov', hmiss⟩ := h
      rcases List.mem_cons.mp hov' with rfl | hmem
      · exfalso
        unfold resource_override_evaluate at he
        rw [hmiss] at he
        cases he
      · have : ∃ msg, List.foldlM (fun c ov => resource_override_evaluate ov c) cat' rest = .error msg := by
          apply ih
          exact ⟨ov', hmem, evaluate_preserves_missing ov catalog cat' he _ hmiss⟩
        obtain ⟨msg, hmsg⟩ := this
        exact ⟨msg, hmsg⟩

/-- A pending override whose target `File[/tmp/x]` is never declared. -/
def undeclared_override : ResourceOverride :=
  { type := ⟨"file", "/tmp/x"⟩
    context := ⟨"site.pp", 3⟩
    attributes := []
    scope := none }

/-- C1 counterexample: with an empty catalog, finalization's override phase
raises "resource File[/tmp/x] does not exist in the catalog." for the
unresolved override instead of silently dropping it. -/
theorem unresolved_override_not_dropped :
    evaluate_remaining_overrides [undeclared_override] ⟨[], []⟩ =
      .error "resource File[/tmp/x] does not exist in the catalog." := rfl

/-- Witness for C1's amended theorem at a concrete input. -/
theorem unresolved_override_errors_witness :
    (∃ ov ∈ [undeclared_override], (Catalog.mk [] []).find ov.type = none) ∧
    ∃ msg, evaluate_remaining_overrides [undeclared_override] ⟨[], []⟩ = .error msg := by
  refine ⟨⟨undeclared_override, List.mem_singleton.mpr rfl, rfl⟩, ?_⟩
  exact unresolved_override_errors [undeclared_override] ⟨[], []⟩
    ⟨undeclared_override, List.mem_singleton.mpr rfl, rfl⟩

/-- `compiler::klass`: a normalized class name plus its AST statement
(opaque id). -/
structure Klass where
  name : String
  statement : Nat
deriving DecidableEq, Repr

/-- The evaluation-context state `context::declare_class` works on: the catalog
and the set of classes already declared (`context::_classes`). -/
structure DeclState where
  catalog : Catalog
  classes : List String

/-- The per-character ASCII lowercasing `boost::to_lower` performs. -/
def ascii_lower (c : Char) : Char :=
  if 'A' ≤ c ∧ c ≤ 'Z' then Char.ofNat (c.toNat + 32) else c

/-- `registry::normalize` (registry.cc lines 435-442): strip a leading `::`,
then lowercase. -/
def normalize (name : String) : String :=
  let stripped : String :=
    if name.data.take 2 = [':', ':'] then ⟨name.data.drop 2⟩ else name
  ⟨stripped.data.map ascii_lower⟩

/-- The stage-metaparameter resolution of `context::declare_class`
(context.cc lines 574-603): a `stage` attribute must be a string naming an
existing stage; without one the stage `main` must exist. -/
def declare_class_stage (resource : Resource) (st2 : DeclState) :
    Except String ResourceType :=
  match resource.get "stage" with
  | some attr =>
    match attr.value with
    | .str stage_name =>
      match st2.catalog.find ⟨"stage", stage_name⟩ with
      | some stage => .ok stage.type
      | none => .error ("stage '" ++ stage_name ++ "' does not exist in the catalog.")
    | v =>
      .error ("expected String for 'stage' metaparameter but found " ++
              v.infer_name ++ ".")
  | none =>
    match st2.catalog.find ⟨"stage", "main"⟩ with
    | some stage => .ok stage.type
    | none => .error "stage 'main' does not exist in the catalog."

/-- The tail of `context::declare_class` after the class resource was found or
created: return without evaluating when the class is already declared;
otherwise record it, contain it in its stage and evaluate the class body. -/
def declare_class_body
    (eval_class : Klass → ResourceType → DeclState → Except String DeclState)
    (klass : Klass) (resource : Resource) (st1 : DeclState) :
    Except String (Resource × DeclState) :=
  if resource.type.title ∈ st1.classes then
    .ok (resource, st1)
  else
    let st2 : DeclState := { st1 with classes := resource.type.title :: st1.classes }
    match declare_class_stage resource st2 with
    | .error e => .error e
    | .ok stage =>
      match eval_class klass resource.type
          { st2 with catalog := st2.catalog.relate stage resource.type } with
      | .error e => .error e
      | .ok st4 => .ok (resource, st4)

/-- `context::declare_class` (context.cc lines 544-612).  The environment's
class lookup (`find_class`) and the class-body evaluator
(`class_evaluator::evaluate`, which may change the state or raise) are passed
in as functions. -/
def declare_class
    (find_class : String → Option Klass)
    (eval_class : Klass → ResourceType → DeclState → Except String DeclState)
    (name : String) (context : SourceContext) (st : DeclState) :
    Except String (Resource × DeclState) :=
  match find_class (normalize name) with
  | none =>
    .error ("cannot declare class '" ++ normalize name ++
            "' because it has not been defined.")
  | some klass =>
    match st.catalog.find ⟨"class", normalize name⟩ with
    | some r => declare_class_body eval_class klass r st
    | none =>
      let r : Resource :=
        { type := ⟨"class", normalize name⟩, container := none,
          virtualized := false, attributes := [] }
      declare_class_body eval_class klass r { st with catalog := st.catalog.add r }

theorem find_relate (c : Catalog) (s t q : ResourceType) :
    (c.relate s t).find q = c.find q := rfl

theorem find_some_type (c : Catalog) (t : ResourceType) (r : Resource)
    (h : c.find t = some r) : r.type = t := by
  have := List.find?_some h
  simpa using this

theorem find_add_self (c : Catalog) (r : Resource)
    (h : c.find r.type = none) : (c.add r).find r.type = some r := by
  unfold Catalog.find Catalog.add at *
  rw [List.find?_append, h]
  simp

/-- The evaluator preserves declared classes and declared resources: no API of
the evaluation context removes a resource from the catalog or a name from the
set of declared classes. -/
def EvalMonotone
    (eval_class : Klass → ResourceType → DeclState → Except String DeclState) : Prop :=
  ∀ k t s s', eval_class k t s = .ok s' →
    (∀ c, c ∈ s.classes → c ∈ s'.classes) ∧
    (∀ rt, (s.catalog.find rt).isSome → (s'.catalog.find rt).isSome)

theorem declare_class_body_post
    (eval_class : Klass → ResourceType → DeclState → Except String DeclState)
    (klass : Klass) (resource : Resource) (st1 : DeclState)
    (hmono : EvalMonotone eval_class)
    (hfind : (st1.catalog.find resource.type).isSome)
    (r : Resource) (stpost : DeclState)
    (h : declare_class_body eval_class klass resource st1 = .ok (r, stpost)) :
    r = resource ∧ resource.type.title ∈ stpost.classes ∧
      (stpost.catalog.find resource.type).isSome := by
  unfold declare_class_body at h
  split at h
  · rename_i hmem
    cases h
    exact ⟨rfl, hmem, hfind⟩
  · simp only [] at h
    split at h
    · exact Except.noConfusion h
    · rename_i stage hstage
      split at h
      · exact Except.noConfusion h
      · rename_i st4 heval
        cases h
        have hm := hmono _ _ _ _ heval
        refine ⟨rfl, ?_, ?_⟩
        · apply hm.1
          exact List.mem_cons_self _ _
        · apply hm.2
          rw [find_relate]
          exact hfind

theorem declare_class_found
    (find_class : String → Option Klass)
    (eval_class : Klass → ResourceType → DeclState → Except String DeclState)
    (name : String) (context : SourceContext) (st : DeclState)
    (klass : Klass) (r : Resource)
    (hfc : find_class (normalize name) = some klass)
    (hr : st.catalog.find ⟨"class", normalize name⟩ = some r) :
    declare_class find_class eval_class name context st =
      declare_class_body eval_class klass r st := by
  unfold declare_class
  rw [hfc, hr]

/-- C8: declaring a class is idempotent per catalog.  If a declaration
succeeds, the class is recorded as declared and its resource is in the catalog,
and declaring the same class again returns the already-declared class resource
with the state unchanged, performing no further evaluation. -/
theorem declare_class_idempotent
    (find_class : String → Option Klass)
    (eval_class : Klass → ResourceType → DeclState → Except String DeclState)
    (name : String) (context1 context2 : SourceContext) (st : DeclState)
    (hmono : EvalMonotone eval_class)
    (r : Resource) (st1 : DeclState)
    (h1 : declare_class find_class eval_class name context1 st = .ok (r, st1)) :
    ∃ r2, st1.catalog.find ⟨"class", normalize name⟩ = some r2 ∧
      declare_class find_class eval_class name context2 st1 = .ok (r2, st1) := by
  unfold declare_class at h1
  cases hfc : find_class (normalize name) with
  | none => rw [hfc] at h1; exact Except.noConfusion h1
  | some klass =>
    rw [hfc] at h1
    have post : (ResourceType.mk "class" (normalize name)).title ∈ st1.classes ∧
        (st1.catalog.find ⟨"class", normalize name⟩).isSome := by
      cases hf : st.catalog.find ⟨"class", normalize name⟩ with
      | some r0 =>
        rw [hf] at h1
        have hr0 : r0.type = ⟨"class", normalize name⟩ := find_some_type _ _ _ hf
        have hp := declare_class_body_post eval_class klass r0 st hmono
          (by rw [hr0, hf]; rfl) r st1 h1
        rw [hr0] at hp
        exact ⟨hp.2.1, hp.2.2⟩
      | none =>
        rw [hf] at h1
        have hadd := find_add_self st.catalog
          { type := ⟨"class", normalize name⟩, container := none,
            virtualized := false, attributes := [] } hf
        have hp := declare_class_body_post eval_class klass _ _ hmono
          (by rw [hadd]; rfl) r st1 h1
        exact ⟨hp.2.1, hp.2.2⟩
    obtain ⟨hcls, hsome⟩ := post
    obtain ⟨r2, hr2⟩ := Option.isSome_iff_exists.mp hsome
    refine ⟨r2, hr2, ?_⟩
    have hr2t : r2.type = ⟨"class", normalize name⟩ := find_some_type _ _ _ hr2
    rw [declare_class_found find_class eval_class name context2 st1 klass r2 hfc hr2]
    unfold declare_class_body
    rw [if_pos (by rw [hr2t]; exact hcls)]

/-- A concrete environment with one class `foo`. -/
def find_class_demo : String → Option Klass :=
  fun n => if n == "foo" then some ⟨"foo", 0⟩ else none

/-- A class-body evaluator that changes nothing. -/
def eval_class_demo : Klass → ResourceType → DeclState → Except String DeclState :=
  fun _ _ s => .ok s

/-- The implicit `Stage[main]` resource. -/
def stage_main_demo : Resource :=
  { type := ⟨"stage", "main"⟩, container := none, virtualized := false, attributes := [] }

/-- The `Class[foo]` resource the first declaration creates. -/
def class_foo_demo : Resource :=
  { type := ⟨"class", "foo"⟩, container := none, virtualized := false, attributes := [] }

/-- The state before any declaration: `Stage[main]` exists, nothing declared. -/
def st0_demo : DeclState := ⟨⟨[stage_main_demo], []⟩, []⟩

/-- The state after the first declaration of `foo`. -/
def st1_demo : DeclState :=
  ⟨⟨[stage_main_demo, class_foo_demo], [(⟨"stage", "main"⟩, ⟨"class", "foo"⟩)]⟩, ["foo"]⟩

/-- Witness for C8 at a concrete input. -/
theorem declare_class_idempotent_witness :
    ∃ r2, st1_demo.catalog.find ⟨"class", normalize "foo"⟩ = some r2 ∧
      declare_class find_class_demo eval_class_demo "foo" ⟨"site.pp", 1⟩ st1_demo =
        .ok (r2, st1_demo) := by
  refine declare_class_idempotent find_class_demo eval_class_demo "foo"
    ⟨"site.pp", 1⟩ ⟨"site.pp", 1⟩ st0_demo ?_ class_foo_demo st1_demo ?_
  · intro k t s s' h
    have hs := Except.ok.inj h
    subst hs
    exact ⟨fun c hc => hc, fun rt hrt => hrt⟩
  · rfl

end Compiler

namespace Registry

/-- The node-definition store of `registry` (registry.hpp lines 447-452): the
definitions, the lowercased-literal-hostname index, the regex-pattern index in
insertion order, and the optional index of the `default` node. -/
structure NodeRegistry where
  nodes : List Nat
  named_nodes : List (String × Nat)
  regex_nodes : List (String × Nat)
  default_node_index : Option Nat

/-- One candidate name's attempt in `registry::find_node` (registry.cc lines
287-303): look the whole name up among the literal hostnames first; then try
every regex in insertion order, searching the whole name. -/
def find_node_for_name (search : String → String → Bool) (reg : NodeRegistry)
    (name : String) : Option (String × Nat) :=
  match reg.named_nodes.find? (fun kvp => kvp.1 == name) with
  | some kvp => some (kvp.1, kvp.2)
  | none =>
    match reg.regex_nodes.find? (fun kvp => search kvp.1 name) with
    | some kvp => some ("/" ++ kvp.1 ++ "/", kvp.2)
    | none => none

/-- The early-exit iteration of `node::each_name` (node.cc lines 131-139) as
used by `registry::find_node`: the first candidate producing a result stops the
traversal. -/
def each_name_search (f : String → Option (String × Nat)) :
    List String → Option (String × Nat)
  | [] => none
  | n :: rest =>
    match f n with
    | some result => some result
    | none => each_name_search f rest

/-- `registry::find_node(node)` (registry.cc lines 277-314): nothing matches
when no node definition exists; otherwise each candidate name is tried from
most specific to least specific, and the `default` node is the fallback. -/
def find_node (search : String → String → Bool) (reg : NodeRegistry)
    (names : List String) : Option (String × Nat) :=
  if reg.nodes.isEmpty then none
  else
    match each_name_search (find_node_for_name search reg) names with
    | some result => some result
    | none => reg.default_node_index.map (fun i => ("default", i))

theorem find?_eq_some_split {α : Type} (p : α → Bool) (l : List α) (a : α)
    (h : l.find? p = some a) :
    ∃ pre post, l = pre ++ a :: post ∧ p a = true ∧ ∀ x ∈ pre, p x = false := by
  induction l with
  | nil => cases h
  | cons x rest ih =>
    by_cases hx : p x = true
    · rw [List.find?_cons_of_pos _ hx] at h
      cases h
      exact ⟨[], rest, rfl, hx, by intro y hy; cases hy⟩
    · rw [List.find?_cons_of_neg _ hx] at h
      obtain ⟨pre, post, rfl, hpa, hpre⟩ := ih h
      refine ⟨x :: pre, post, rfl, hpa, ?_⟩
      intro y hy
      rcases List.mem_cons.mp hy with rfl | hmem
      · simpa using hx
      · exact hpre y hmem

theorem each_name_search_cons (f : String → Option (String × Nat)) (n : String)
    (rest : List String) :
    each_name_search f (n :: rest) =
      match f n with
      | some result => some result
      | none => each_name_search f rest := rfl

theorem find_node_cons (search : String → String → Bool) (reg : NodeRegistry)
    (n : String) (rest : List String) (h : reg.nodes.isEmpty = false) :
    find_node search reg (n :: rest) =
      match find_node_for_name search reg n with
      | some result => some result
      | none => find_node search reg rest := by
  unfold find_node
  rw [h, each_name_search_cons]
  simp only [Bool.false_eq_true, if_false]
  cases hf : find_node_for_name search reg n with
  | some r => rfl
  | none => rfl

/-- C5: with at least one node definition registered, matching tries, for each
candidate name from most to least specific, the literal hostnames first and
then the regex patterns in insertion order (the successful regex is the first
registered pattern that matches), and only when no candidate matched anything
is the `default` clause used; every lookup receives the whole candidate name,
never a part of it. -/
theorem find_node_priority (search : String → String → Bool) (reg : NodeRegistry)
    (h : reg.nodes ≠ []) :
    (∀ (n : String) (rest : List String),
      find_node search reg (n :: rest) =
        match reg.named_nodes.find? (fun kvp => kvp.1 == n) with
        | some kvp => some (kvp.1, kvp.2)
        | none =>
          match reg.regex_nodes.find? (fun kvp => search kvp.1 n) with
          | some kvp => some ("/" ++ kvp.1 ++ "/", kvp.2)
          | none => find_node search reg rest) ∧
    (find_node search reg [] = reg.default_node_index.map (fun i => ("default", i))) ∧
    (∀ (n : String) (kvp : String × Nat),
      reg.regex_nodes.find? (fun kvp => search kvp.1 n) = some kvp →
        ∃ pre post, reg.regex_nodes = pre ++ kvp :: post ∧
          search kvp.1 n = true ∧ ∀ q ∈ pre, search q.1 n = false) := by
  have hne : reg.nodes.isEmpty = false := by
    cases hn : reg.nodes with
    | nil => exact absurd hn h
    | cons a l => rfl
  refine ⟨?_, ?_, ?_⟩
  · intro n rest
    rw [find_node_cons search reg n rest hne]
    unfold find_node_for_name
    cases hl : reg.named_nodes.find? (fun kvp => kvp.1 == n) with
    | some kvp => rfl
    | none =>
      cases hr : reg.regex_nodes.find? (fun kvp => search kvp.1 n) with
      | some kvp => rfl
      | none => rfl
  · unfold find_node each_name_search
    rw [hne]
    rfl
  · intro n kvp hfind
    exact find?_eq_some_split _ _ _ hfind

/-- Witness for C5 at a concrete registry: the literal match on the first
candidate beats the regexes and the default. -/
theorem find_node_priority_witness :
    find_node (fun p n => p == n)
      ⟨[0, 1], [("web.example.com", 0)], [("web", 1)], some 1⟩
      ["web.example.com", "web"] = some ("web.example.com", 0) := by
  have h := find_node_priority (fun p n => p == n)
    ⟨[0, 1], [("web.example.com", 0)], [("web", 1)], some 1⟩ (by simp)
  rw [h.1 "web.example.com" ["web"]]
  rfl

end Registry

namespace NodeName

/-- Splitting on `.` as `boost::make_split_iterator` with `first_finder(".")`
produces the sequence of (possibly empty) segments. -/
def splitSeg : List Char → List (List Char)
  | [] => [[]]
  | c :: rest =>
    if c = '.' then [] :: splitSeg rest
    else
      match splitSeg rest with
      | s :: ss => (c :: s) :: ss
      | [] => [[]]

/-- Joining segments with `.`: the inverse of `splitSeg`. -/
def joinDots : List (List Char) → List Char
  | [] => []
  | [s] => s
  | s :: rest => s ++ '.' :: joinDots rest

/-- The loop of `node::node` (node.cc lines 23-33) over the split segments:
for every nonempty segment, record the prefix of the whole name up to that
segment's end (`string hostname(name.begin(), it->end())`), lowercased.  The
accumulator is the raw name prefix before the current segment. -/
def candidates_go (acc : List Char) : List (List Char) → List (List Char)
  | [] => []
  | s :: rest =>
    (if s.isEmpty then [] else [(acc ++ s).map Compiler.ascii_lower]) ++
      candidates_go (acc ++ s ++ ['.']) rest

/-- The candidate hostnames `node::node` emplaces, in emplacement order. -/
def node_candidates (name : List Char) : List (List Char) :=
  candidates_go [] (splitSeg name)

/-- `std::string` comparison: lexicographic by character. -/
def lexLt : List Char → List Char → Bool
  | [], [] => false
  | [], _ :: _ => true
  | _ :: _, [] => false
  | a :: as, b :: bs => if a < b then true else if b < a then false else lexLt as bs

/-- `std::set<std::string>` insertion: keep the list sorted by `lexLt` without
duplicates. -/
def set_insert (x : List Char) : List (List Char) → List (List Char)
  | [] => [x]
  | y :: rest =>
    if lexLt x y then x :: y :: rest
    else if x = y then y :: rest
    else y :: set_insert x rest

/-- The `_names` member of `node`: an ordered set of the candidate names. -/
def node_names (name : List Char) : List (List Char) :=
  (node_candidates name).foldl (fun acc s => set_insert s acc) []

/-- `node::each_name` (node.cc lines 131-139): the set traversed backwards,
most specific name first. -/
def each_name_order (name : List Char) : List (List Char) :=
  (node_names name).reverse

/-- The literal-hostname registration of `registry::register_node`
(registry.cc line 390): `_named_nodes.emplace(boost::to_lower_copy(hostname),
node_index)`. -/
def register_named_node (hostname : List Char) (index : Nat)
    (named : List (List Char × Nat)) : List (List Char × Nat) :=
  named ++ [(hostname.map Compiler.ascii_lower, index)]

/-- Stated from the claim: the dot-separated prefixes of a segment list, from
least to most specific (`Foo.Bar.Baz` yields `Foo`, `Foo.Bar`, `Foo.Bar.Baz`). -/
def dotPrefixes : List (List Char) → List (List Char)
  | [] => []
  | s :: rest => s :: (dotPrefixes rest).map (fun p => s ++ '.' :: p)

theorem splitSeg_ne_nil (l : List Char) : splitSeg l ≠ [] := by
  cases l with
  | nil => simp [splitSeg]
  | cons c rest =>
    unfold splitSeg
    by_cases h : c = '.'
    · rw [if_pos h]; simp
    · rw [if_neg h]
      cases splitSeg rest with
      | nil => simp
      | cons s ss => simp

theorem split_dotfree (s : List Char) (h : '.' ∉ s) : splitSeg s = [s] := by
  induction s with
  | nil => rfl
  | cons c rest ih =>
    have hc : c ≠ '.' := by
      intro hc; exact h (hc ▸ List.mem_cons_self c rest)
    have hrest : '.' ∉ rest := fun hm => h (List.mem_cons_of_mem c hm)
    unfold splitSeg
    rw [if_neg hc, ih hrest]

theorem split_append (s t : List Char) (h : '.' ∉ s) :
    splitSeg (s ++ '.' :: t) = s :: splitSeg t := by
  induction s with
  | nil =>
    show splitSeg ('.' :: t) = [] :: splitSeg t
    rw [splitSeg]
    rw [if_pos rfl]
  | cons c rest ih =>
    have hc : c ≠ '.' := by
      intro hc; exact h (hc ▸ List.mem_cons_self c rest)
    have hrest : '.' ∉ rest := fun hm => h (List.mem_cons_of_mem c hm)
    show splitSeg (c :: (rest ++ '.' :: t)) = (c :: rest) :: splitSeg t
    rw [splitSeg]
    rw [if_neg hc, ih hrest]

theorem split_join (segs : List (List Char)) (h1 : segs ≠ [])
    (h2 : ∀ s ∈ segs, '.' ∉ s) : splitSeg (joinDots segs) = segs := by
  induction segs with
  | nil => exact absurd rfl h1
  | cons s rest ih =>
    cases rest with
    | nil =>
      show splitSeg (joinDots [s]) = [s]
      unfold joinDots
      exact split_dotfree s (h2 s (List.mem_cons_self s []))
    | cons s2 rest2 =>
      show splitSeg (s ++ '.' :: joinDots (s2 :: rest2)) = s :: s2 :: rest2
      rw [split_append s _ (h2 s (List.mem_cons_self _ _))]
      rw [ih (by simp) (fun x hx => h2 x (List.mem_cons_of_mem s hx))]

theorem go_spec (segs : List (List Char)) (acc : List Char)
    (h : ∀ s ∈ segs, s ≠ []) :
    candidates_go acc segs =
      (dotPrefixes segs).map (fun p => (acc ++ p).map Compiler.ascii_lower) := by
  induction segs generalizing acc with
  | nil => rfl
  | cons s rest ih =>
    have hs : s.isEmpty = false := by
      cases hx : s with
      | nil => exact absurd hx (h s (List.mem_cons_self s rest))
      | cons a l => rfl
    unfold candidates_go dotPrefixes
    rw [hs]
    simp only [Bool.false_eq_true, if_false]
    rw [ih (acc ++ s ++ ['.']) (fun x hx => h x (List.mem_cons_of_mem s hx))]
    simp only [List.map_cons, List.map_map, List.singleton_append]
    congr 1
    apply List.map_congr_left
    intro p hp
    simp [Function.comp, List.append_assoc]

theorem lexLt_irrefl (a : List Char) : lexLt a a = false := by
  induction a with
  | nil => rfl
  | cons x as ih =>
    unfold lexLt
    rw [if_neg (lt_irrefl x), if_neg (lt_irrefl x)]
    exact ih

theorem lexLt_asym (a b : List Char) (h : lexLt a b = true) : lexLt b a = false := by
  induction a generalizing b with
  | nil =>
    cases b with
    | nil => cases h
    | cons y bs => rfl
  | cons x as ih =>
    cases b with
    | nil => cases h
    | cons y bs =>
      unfold lexLt at h ⊢
      by_cases hxy : x < y
      · rw [if_neg (lt_asymm hxy), if_pos hxy]
      · rw [if_neg hxy] at h
        by_cases hyx : y < x
        · rw [if_pos hyx] at h; cases h
        · rw [if_neg hyx] at h
          rw [if_neg hyx, if_neg hxy]
          exact ih bs h

theorem prefix_lexLt (a : List Char) (c : Char) (t : List Char) :
    lexLt a (a ++ c :: t) = true := by
  induction a with
  | nil => rfl
  | cons x as ih =>
    show lexLt (x :: as) (x :: (as ++ c :: t)) = true
    unfold lexLt
    rw [if_neg (lt_irrefl x), if_neg (lt_irrefl x)]
    exact ih

theorem insert_end (x : List Char) (acc : List (List Char))
    (h : ∀ y ∈ acc, lexLt y x = true) : set_insert x acc = acc ++ [x] := by
  induction acc with
  | nil => rfl
  | cons y rest ih =>
    have hy : lexLt y x = true := h y (List.mem_cons_self y rest)
    have hxy : lexLt x y = false := lexLt_asym y x hy
    have hne : x ≠ y := by
      intro hc
      rw [hc] at hy
      rw [lexLt_irrefl] at hy
      cases hy
    unfold set_insert
    rw [hxy]
    simp only [Bool.false_eq_true, if_false]
    rw [if_neg hne]
    rw [ih (fun z hz => h z (List.mem_cons_of_mem y hz))]
    rfl

theorem fold_sorted (l : List (List Char)) (acc : List (List Char))
    (h : List.Pairwise (fun a b => lexLt a b = true) (acc ++ l)) :
    l.foldl (fun a s => set_insert s a) acc = acc ++ l := by
  induction l generalizing acc with
  | nil => simp
  | cons x rest ih =>
    rw [List.foldl_cons]
    have hins : set_insert x acc = acc ++ [x] := by
      apply insert_end
      intro y hy
      have := (List.pairwise_append.mp h).2.2 y hy x (List.mem_cons_self x rest)
      exact this
    rw [hins]
    have hperm : (acc ++ [x]) ++ rest = acc ++ x :: rest := by simp
    rw [ih (acc ++ [x]) (by rw [hperm]; exact h)]
    simp

theorem dotPrefixes_pairwise (segs : List (List Char)) :
    List.Pairwise (fun a b => ∃ t, b = a ++ '.' :: t) (dotPrefixes segs) := by
  induction segs with
  | nil => exact List.Pairwise.nil
  | cons s rest ih =>
    unfold dotPrefixes
    rw [List.pairwise_cons]
    constructor
    · intro b hb
      obtain ⟨p, hp, rfl⟩ := List.mem_map.mp hb
      exact ⟨p, rfl⟩
    · exact ih.map _ (fun a b hab => by
        obtain ⟨t, rfl⟩ := hab
        exact ⟨t, by simp⟩)

/-- C10: when a node is constructed from a name whose dot-separated segments
are all nonempty, its candidate name set is exactly the dot-separated prefixes
of the name, each lowercased; `each_name` enumerates them from the full name
(most specific) down to the first segment; and `register_node` lowercases the
literal hostnames it indexes, so a candidate (itself lowercased) hits a
registered literal exactly when the two agree up to case. -/
theorem node_names_spec (segs : List (List Char))
    (h1 : segs ≠ []) (h2 : ∀ s ∈ segs, s ≠ [] ∧ '.' ∉ s) :
    (each_name_order (joinDots segs) =
      ((dotPrefixes segs).map (List.map Compiler.ascii_lower)).reverse) ∧
    (∀ (hostname candidate : List Char) (index : Nat),
      (((register_named_node hostname index []).find?
          (fun kv => kv.1 == candidate)).isSome ↔
        hostname.map Compiler.ascii_lower = candidate)) := by
  constructor
  · unfold each_name_order node_names node_candidates
    rw [split_join segs h1 (fun s hs => (h2 s hs).2)]
    rw [go_spec segs [] (fun s hs => (h2 s hs).1)]
    have hpair : List.Pairwise (fun a b => lexLt a b = true)
        ((dotPrefixes segs).map (fun p => ([] ++ p).map Compiler.ascii_lower)) :=
      (dotPrefixes_pairwise segs).map _ (fun a b hab => by
        obtain ⟨t, rfl⟩ := hab
        simp only [List.nil_append, List.map_append, List.map_cons]
        exact prefix_lexLt _ _ _)
    rw [fold_sorted _ [] (by simpa using hpair)]
    simp
  · intro hostname candidate index
    unfold register_named_node
    simp only [List.nil_append]
    constructor
    · intro h
      by_cases hc : ((List.map Compiler.ascii_lower hostname, index).1 == candidate) = true
      · simpa using hc
      · rw [List.find?_cons_of_neg (p := fun (kv : List Char × Nat) => kv.1 == candidate) _ hc] at h
        simp at h
    · intro h
      rw [List.find?_cons_of_pos (p := fun (kv : List Char × Nat) => kv.1 == candidate)]
      · rfl
      · simp [h]

/-- Witness for C10: the claim's own example `Foo.Bar.Baz`. -/
theorem node_names_spec_witness :
    each_name_order ("Foo.Bar.Baz".data) =
      ["foo.bar.baz".data, "foo.bar".data, "foo".data] := by
  have h := node_names_spec [['F', 'o', 'o'], ['B', 'a', 'r'], ['B', 'a', 'z']]
    (by decide) (by decide)
  have hj : "Foo.Bar.Baz".data =
      joinDots [['F', 'o', 'o'], ['B', 'a', 'r'], ['B', 'a', 'z']] := rfl
  rw [hj, h.1]
  decide

end NodeName

namespace FormatMap

/-- The constructor kind of a runtime type, as distinguished by
`get_type_rank`. -/
inductive TypeKind where
  | struct
  | hash
  | tuple
  | array
  | pattern
  | enumeration
  | str
  | other
deriving DecidableEq, Repr

/-- `get_type_rank` (format_map.cc lines 8-33): the rank from lowest generality
to highest; every type other than the seven listed gets
`numeric_limits<size_t>::max()`. -/
def get_type_rank (k : TypeKind) : Nat :=
  match k with
  | .struct => 1
  | .hash => 2
  | .tuple => 3
  | .array => 4
  | .pattern => 5
  | .enumeration => 6
  | .str => 7
  | .other => 2 ^ 64 - 1

/-- The type/value algebra the format map consults, abstracted (the type
system is implemented outside this component): assignability, the instance
test, and the constructor kind used by the rank tie-breaker. -/
structure TypeUniverse (T V : Type) where
  is_assignable : T → T → Bool
  is_instance : V → T → Bool
  kind : T → TypeKind

/-- The comparator passed to `sort` in `format_map::format_map` (format_map.cc
lines 79-95): a type assignable from the other sorts later; equal or disjoint
types fall back to the fixed rank. -/
def type_less {T V : Type} (U : TypeUniverse T V) (left right : T) : Bool :=
  if U.is_assignable left right && !U.is_assignable right left then false
  else if !U.is_assignable left right && U.is_assignable right left then true
  else decide (get_type_rank (U.kind left) < get_type_rank (U.kind right))

/-- The operations of `format_map::format_map` implemented outside
format_map.cc: reading a value as a type / string / hash, the inferred type
name used in error messages, and the two `format` constructors. -/
structure BuildOps (T V F : Type) where
  as_type : V → Option T
  as_string : V → Option String
  as_hash : V → Option (List (V × V))
  infer_name : V → String
  format_of_string : String → F
  format_of_hash : List (V × V) → F

/-- The validation loop of `format_map::format_map` (format_map.cc lines
37-76): every key must be a type; with `allow_hash` a hash value builds a
nested format, otherwise the value must be a string; the first offending pair
raises. -/
def build_entries {T V F : Type} (ops : BuildOps T V F) (allow_hash : Bool) :
    List (V × V) → Except String (List (T × F))
  | [] => .ok []
  | (k, v) :: rest =>
    match ops.as_type k with
    | none =>
      .error ("expected Type for hash key but found " ++ ops.infer_name k ++ ".")
    | some t =>
      if allow_hash then
        match ops.as_hash v with
        | some h =>
          (build_entries ops allow_hash rest).map
            (fun entries => (t, ops.format_of_hash h) :: entries)
        | none =>
          match ops.as_string v with
          | none =>
            .error ("expected Hash or String for hash value but found " ++
                    ops.infer_name v ++ ".")
          | some s =>
            (build_entries ops allow_hash rest).map
              (fun entries => (t, ops.format_of_string s) :: entries)
      else
        match ops.as_string v with
        | none =>
          .error ("expected String for hash value but found " ++
                  ops.infer_name v ++ ".")
        | some s =>
          (build_entries ops allow_hash rest).map
            (fun entries => (t, ops.format_of_string s) :: entries)

/-- Insertion into a sorted run; `std::sort` is modelled as insertion sort
with the source's comparator. -/
def orderedInsertBy {α : Type} (lt : α → α → Bool) (a : α) : List α → List α
  | [] => [a]
  | b :: l => if lt a b then a :: b :: l else b :: orderedInsertBy lt a l

/-- Insertion sort with the source's comparator. -/
def insertionSortBy {α : Type} (lt : α → α → Bool) : List α → List α
  | [] => []
  | a :: l => orderedInsertBy lt a (insertionSortBy lt l)

/-- `format_map::format_map`: validate the hash, then sort the entries from
most specific type to least specific. -/
def format_map_build {T V F : Type} (U : TypeUniverse T V) (ops : BuildOps T V F)
    (allow_hash : Bool) (pairs : List (V × V)) : Except String (List (T × F)) :=
  (build_entries ops allow_hash pairs).map
    (insertionSortBy (fun l r => type_less U l.1 r.1))

/-- `format_map::find_format` (format_map.cc lines 103-114): the first entry
whose type the value is an instance of, else none. -/
def find_format {T V F : Type} (U : TypeUniverse T V) (formats : List (T × F))
    (v : V) : Option F :=
  (formats.find? (fun entry => U.is_instance v entry.1)).map (fun entry => entry.2)

theorem type_less_asym {T V : Type} (U : TypeUniverse T V) (x y : T)
    (h : type_less U x y = true) : type_less U y x = false := by
  unfold type_less at h ⊢
  cases hxy : U.is_assignable x y <;> cases hyx : U.is_assignable y x <;>
    simp_all <;> omega

theorem orderedInsertBy_perm {α : Type} (lt : α → α → Bool) (a : α) (l : List α) :
    (orderedInsertBy lt a l).Perm (a :: l) := by
  induction l with
  | nil => exact List.Perm.refl _
  | cons b l ih =>
    unfold orderedInsertBy
    by_cases h : lt a b = true
    · rw [if_pos h]
    · rw [if_neg h]
      exact (List.Perm.cons b ih).trans (List.Perm.swap a b l)

theorem insertionSortBy_perm {α : Type} (lt : α → α → Bool) (l : List α) :
    (insertionSortBy lt l).Perm l := by
  induction l with
  | nil => exact List.Perm.refl _
  | cons a l ih =>
    unfold insertionSortBy
    exact (orderedInsertBy_perm lt a _).trans (List.Perm.cons a ih)

theorem orderedInsertBy_chain {α : Type} (lt : α → α → Bool)
    (hasym : ∀ x y, lt x y = true → lt y x = false)
    (a : α) (l : List α) (h : List.Chain' (fun x y => lt y x = false) l) :
    List.Chain' (fun x y => lt y x = false) (orderedInsertBy lt a l) := by
  induction l with
  | nil => simp [orderedInsertBy]
  | cons b l ih =>
    unfold orderedInsertBy
    by_cases hab : lt a b = true
    · rw [if_pos hab]
      exact List.Chain'.cons (hasym a b hab) h
    · rw [if_neg hab]
      have htail : List.Chain' (fun x y => lt y x = false) l := h.tail
      have hins := ih htail
      cases l with
      | nil =>
        simp only [orderedInsertBy]
        exact List.Chain'.cons (by simpa using hab) (List.chain'_singleton a)
      | cons c l2 =>
        unfold orderedInsertBy
        by_cases hac : lt a c = true
        · rw [if_pos hac]
          refine List.Chain'.cons (by simpa using hab) ?_
          unfold orderedInsertBy at hins
          rw [if_pos hac] at hins
          exact hins
        · rw [if_neg hac]
          refine List.Chain'.cons ?_ ?_
          · rcases List.chain'_cons.mp h with ⟨hbc, -⟩
            exact hbc
          · unfold orderedInsertBy at hins
            rw [if_neg hac] at hins
            exact hins

theorem insertionSortBy_chain {α : Type} (lt : α → α → Bool)
    (hasym : ∀ x y, lt x y = true → lt y x = false) (l : List α) :
    List.Chain' (fun x y => lt y x = false) (insertionSortBy lt l) := by
  induction l with
  | nil => simp [insertionSortBy]
  | cons a l ih =>
    unfold insertionSortBy
    exact orderedInsertBy_chain lt hasym a _ ih

theorem find?_first {α : Type} (p : α → Bool) (pre post : List α) (a : α)
    (hpre : ∀ x ∈ pre, p x = false) (ha : p a = true) :
    List.find? p (pre ++ a :: post) = some a := by
  induction pre with
  | nil => simpa using List.find?_cons_of_pos post ha
  | cons x rest ih =>
    rw [List.cons_append, List.find?_cons_of_neg]
    · exact ih (fun y hy => hpre y (List.mem_cons_of_mem x hy))
    · simp [hpre x (List.mem_cons_self x rest)]

/-- C6: the format map built from a hash is a permutation of its validated
(type, format) entries ordered from most specific type to least specific:
adjacent entries never have the later one strictly preceding the earlier under
the source's comparator, which puts a type assignable from the other later and
breaks ties between equal or disjoint types by the fixed rank
`Struct < Hash < Tuple < Array < Pattern < Enum < String < Any`; and
`find_format` returns the format of the first entry whose type the value is an
instance of, or none when no entry matches. -/
theorem format_map_spec {T V F : Type} (U : TypeUniverse T V) (ops : BuildOps T V F)
    (allow_hash : Bool) (pairs : List (V × V)) (entries : List (T × F))
    (hbuild : build_entries ops allow_hash pairs = .ok entries) :
    format_map_build U ops allow_hash pairs =
        .ok (insertionSortBy (fun l r => type_less U l.1 r.1) entries) ∧
    (insertionSortBy (fun l r => type_less U l.1 r.1) entries).Perm entries ∧
    List.Chain' (fun a b => type_less U b.1 a.1 = false)
      (insertionSortBy (fun l r => type_less U l.1 r.1) entries) ∧
    (∀ x y : T, type_less U x y = true → type_less U y x = false) ∧
    (get_type_rank .struct < get_type_rank .hash ∧
     get_type_rank .hash < get_type_rank .tuple ∧
     get_type_rank .tuple < get_type_rank .array ∧
     get_type_rank .array < get_type_rank .pattern ∧
     get_type_rank .pattern < get_type_rank .enumeration ∧
     get_type_rank .enumeration < get_type_rank .str ∧
     get_type_rank .str < get_type_rank .other) ∧
    (∀ (formats : List (T × F)) (v : V),
      (∀ f, find_format U formats v = some f ↔
          ∃ t pre post, formats = pre ++ (t, f) :: post ∧ U.is_instance v t = true ∧
            ∀ e ∈ pre, U.is_instance v e.1 = false) ∧
      (find_format U formats v = none ↔
          ∀ e ∈ formats, U.is_instance v e.1 = false)) := by
  refine ⟨?_, ?_, ?_, ?_, ?_, ?_⟩
  · unfold format_map_build
    rw [hbuild]
    rfl
  · exact insertionSortBy_perm _ entries
  · exact insertionSortBy_chain _ (fun x y h => type_less_asym U x.1 y.1 h) entries
  · exact fun x y h => type_less_asym U x y h
  · refine ⟨by decide, by decide, by decide, by decide, by decide, by decide, ?_⟩
    show (7 : Nat) < 2 ^ 64 - 1
    norm_num
  · intro formats v
    constructor
    · intro f
      constructor
      · intro h
        unfold find_format at h
        obtain ⟨entry, hfind, hsnd⟩ := Option.map_eq_some'.mp h
        obtain ⟨pre, post, rfl, hp, hpre⟩ := Registry.find?_eq_some_split _ _ _ hfind
        refine ⟨entry.1, pre, post, ?_, hp, hpre⟩
        rw [← hsnd]
      · intro h
        obtain ⟨t, pre, post, rfl, hinst, hpre⟩ := h
        unfold find_format
        rw [find?_first _ pre post (t, f) hpre hinst]
        rfl
    · unfold find_format
      rw [Option.map_eq_none']
      rw [List.find?_eq_none]
      constructor
      · intro h e he
        have := h e he
        simpa using this
      · intro h e he
        simp [h e he]

/-- A demo type universe: `other` accepts every type, every other type accepts
only itself. -/
def demoU : TypeUniverse TypeKind Nat :=
  { is_assignable := fun a b => a == b || a == TypeKind.other
    is_instance := fun _ t => t == TypeKind.str || t == TypeKind.other
    kind := fun t => t }

/-- Demo build operations: value 0 reads as the `String` type, value 1 as
`Any`; every value reads as the string "s". -/
def demoOps : BuildOps TypeKind Nat String :=
  { as_type := fun v =>
      if v == 0 then some TypeKind.str
      else if v == 1 then some TypeKind.other
      else none
    as_string := fun _ => some "s"
    as_hash := fun _ => none
    infer_name := fun _ => "Integer"
    format_of_string := fun s => s
    format_of_hash := fun _ => "h" }

/-- Witness for C6 at a concrete input: the `Any`-keyed entry, although first
in the hash, sorts after the more specific `String`-keyed entry, and
`find_format` picks the `String` entry first. -/
theorem format_map_spec_witness :
    format_map_build demoU demoOps false [(1, 5), (0, 6)] =
      .ok [(TypeKind.str, "s"), (TypeKind.other, "s")] ∧
    find_format demoU [(TypeKind.str, "s"), (TypeKind.other, "s")] 7 = some "s" := by
  have h := format_map_spec demoU demoOps false [(1, 5), (0, 6)]
    [(TypeKind.other, "s"), (TypeKind.str, "s")] rfl
  constructor
  · rw [h.1]
    rfl
  · rfl

end FormatMap

namespace Heredoc

/-- `LEXER_TAB_WIDTH` (lexer.hpp line 36). -/
def LEXER_TAB_WIDTH : Nat := 4

/-- The margin-consuming inner loop of `lexer::extract_string` (lexer.hpp
lines 368-379): consume leading spaces and tabs while margin remains, a space
spending one column and a tab spending `LEXER_TAB_WIDTH` columns (or whatever
margin is left). -/
def consume_margin : Nat → List Char → List Char
  | 0, cs => cs
  | _, [] => []
  | cm + 1, c :: cs =>
    if c = ' ' then consume_margin cm cs
    else if c = '\t' then consume_margin (cm + 1 - min LEXER_TAB_WIDTH (cm + 1)) cs
    else c :: cs

theorem consume_margin_zero (cs : List Char) : consume_margin 0 cs = cs := by
  cases cs <;> rfl

theorem consume_margin_suffix (cm : Nat) (cs : List Char) :
    (consume_margin cm cs).IsSuffix cs := by
  induction cs generalizing cm with
  | nil =>
    cases cm with
    | zero => exact List.suffix_refl _
    | succ k => exact List.suffix_refl _
  | cons c rest ih =>
    cases cm with
    | zero => exact List.suffix_refl _
    | succ k =>
      unfold consume_margin
      split
      · exact (ih k).trans (List.suffix_cons c rest)
      · split
        · exact (ih _).trans (List.suffix_cons c rest)
        · exact List.suffix_refl _

theorem consume_margin_length (cm : Nat) (cs : List Char) :
    (consume_margin cm cs).length ≤ cs.length :=
  (consume_margin_suffix cm cs).length_le

/-- The escape lookahead of `lexer::extract_string` (lexer.hpp lines 390-394):
the character after the backslash, skipping one carriage return. -/
def escape_lookahead : List Char → Option (Char × List Char)
  | [] => none
  | '\r' :: rest =>
    match rest with
    | [] => none
    | e :: rest2 => some (e, rest2)
  | e :: rest => some (e, rest)

theorem escape_lookahead_length (rest : List Char) (e : Char) (rest2 : List Char)
    (h : escape_lookahead rest = some (e, rest2)) : rest2.length < rest.length := by
  unfold escape_lookahead at h
  repeat' split at h
  all_goals try cases h
  all_goals simp_all
  all_goals omega

/-- `lexer::extract_string` (lexer.hpp lines 361-442): one pass over the
characters, consuming the margin at the start of the text and after every line
break; with a non-empty escape list a backslash escape is translated (`r n t
s` to their characters, `u` raises, an escaped line break is swallowed and the
margin reapplies, anything else passes through, an unrecognized escape leaves
the backslash).  The current margin state is the second list argument. -/
def extract_string (escapes : List Char) (margin : Nat) :
    List Char → Nat → Except String (List Char)
  | cs, cm =>
    match hcm : consume_margin cm cs with
    | [] => .ok []
    | c :: rest =>
      if c = '\\' && !escapes.isEmpty then
        match hla : escape_lookahead rest with
        | some (e, rest2) =>
          if e ∈ escapes then
            if e = 'r' then (extract_string escapes margin rest2 0).map (fun t => '\r' :: t)
            else if e = 'n' then (extract_string escapes margin rest2 0).map (fun t => '\n' :: t)
            else if e = 't' then (extract_string escapes margin rest2 0).map (fun t => '\t' :: t)
            else if e = 's' then (extract_string escapes margin rest2 0).map (fun t => ' ' :: t)
            else if e = 'u' then .error "unicode escape sequences are not yet supported."
            else if e = '\n' then extract_string escapes margin rest2 margin
            else (extract_string escapes margin rest2 0).map (fun t => e :: t)
          else
            (extract_string escapes margin rest 0).map (fun t => c :: t)
        | none =>
          (extract_string escapes margin rest 0).map (fun t => c :: t)
      else
        (extract_string escapes margin rest (if c = '\n' then margin else 0)).map
          (fun t => c :: t)
termination_by cs _ => cs.length
decreasing_by
  all_goals
    have hlen : (c :: rest).length ≤ cs.length := by
      rw [← hcm]; exact consume_margin_length _ _
  · have := escape_lookahead_length rest e rest2 hla
    simp at hlen
    omega
  · have := escape_lookahead_length rest e rest2 hla
    simp at hlen
    omega
  · have := escape_lookahead_length rest e rest2 hla
    simp at hlen
    omega
  · have := escape_lookahead_length rest e rest2 hla
    simp at hlen
    omega
  · have := escape_lookahead_length rest e rest2 hla
    simp at hlen
    omega
  · have := escape_lookahead_length rest e rest2 hla
    simp at hlen
    omega
  · simp at hlen
    omega
  · simp at hlen
    omega
  · simp at hlen
    omega

theorem consume_margin_nil (cm : Nat) : consume_margin cm [] = [] := by
  cases cm <;> rfl

theorem consume_append_newline (cm : Nat) (l t : List Char) :
    consume_margin cm (l ++ '\n' :: t) = consume_margin cm l ++ '\n' :: t := by
  induction l generalizing cm with
  | nil =>
    cases cm with
    | zero => simp [consume_margin_zero]
    | succ k => simp [consume_margin]
  | cons c rest ih =>
    cases cm with
    | zero => simp [consume_margin_zero]
    | succ k =>
      show consume_margin (k + 1) (c :: (rest ++ '\n' :: t)) =
        consume_margin (k + 1) (c :: rest) ++ '\n' :: t
      unfold consume_margin
      split_ifs with h1 h2
      · exact ih k
      · exact ih _
      · simp

theorem extract_of_consume_nil (escapes : List Char) (margin : Nat) (cs : List Char)
    (cm : Nat) (h : consume_margin cm cs = []) :
    extract_string escapes margin cs cm = .ok [] := by
  rw [extract_string]
  cases hx : consume_margin cm cs with
  | nil => rfl
  | cons c r => rw [hx] at h; cases h

theorem extract_of_consume_cons (escapes : List Char) (margin : Nat) (cs : List Char)
    (cm : Nat) (c : Char) (rest : List Char)
    (h : consume_margin cm cs = c :: rest) (hesc : escapes = []) :
    extract_string escapes margin cs cm =
      (extract_string escapes margin rest (if c = '\n' then margin else 0)).map
        (fun t => c :: t) := by
  subst hesc
  rw [extract_string]
  cases hx : consume_margin cm cs with
  | nil => rw [hx] at h; cases h
  | cons c2 r2 =>
    rw [hx] at h
    injection h with h1 h2
    subst h1
    subst h2
    simp

theorem extract_step_plain (margin : Nat) (c : Char) (rest : List Char) :
    extract_string [] margin (c :: rest) 0 =
      (extract_string [] margin rest (if c = '\n' then margin else 0)).map
        (fun t => c :: t) :=
  extract_of_consume_cons [] margin (c :: rest) 0 c rest (consume_margin_zero _) rfl

theorem extract_line_zero (margin : Nat) (l rest : List Char) (hl : '\n' ∉ l) :
    extract_string [] margin (l ++ '\n' :: rest) 0 =
      (extract_string [] margin rest margin).map (fun t => l ++ '\n' :: t) := by
  induction l with
  | nil =>
    rw [List.nil_append, extract_step_plain, if_pos rfl]
    rfl
  | cons c l2 ih =>
    have hc : c ≠ '\n' := fun hh => hl (hh ▸ List.mem_cons_self c l2)
    have hl2 : '\n' ∉ l2 := fun hh => hl (List.mem_cons_of_mem c hh)
    rw [List.cons_append, extract_step_plain, if_neg hc, ih hl2]
    cases hx : extract_string [] margin rest margin with
    | error e => rfl
    | ok t => rfl

theorem extract_line_margin (margin : Nat) (l rest : List Char) (hl : '\n' ∉ l) :
    extract_string [] margin (l ++ '\n' :: rest) margin =
      (extract_string [] margin rest margin).map
        (fun t => consume_margin margin l ++ '\n' :: t) := by
  cases hcl : consume_margin margin l with
  | nil =>
    have hstep : consume_margin margin (l ++ '\n' :: rest) = '\n' :: rest := by
      rw [consume_append_newline, hcl]
      simp
    rw [extract_of_consume_cons [] margin _ margin '\n' rest hstep rfl, if_pos rfl]
    cases hx : extract_string [] margin rest margin with
    | error e => rfl
    | ok t => rfl
  | cons c r =>
    have hstep : consume_margin margin (l ++ '\n' :: rest) = c :: (r ++ '\n' :: rest) := by
      rw [consume_append_newline, hcl]
      rfl
    have hsuf : (c :: r).IsSuffix l := by
      rw [← hcl]
      exact consume_margin_suffix margin l
    have hc : c ≠ '\n' := fun hh => hl (hh ▸ hsuf.subset (List.mem_cons_self c r))
    have hr : '\n' ∉ r := fun hh => hl (hsuf.subset (List.mem_cons_of_mem c hh))
    rw [extract_of_consume_cons [] margin _ margin c (r ++ '\n' :: rest) hstep rfl,
      if_neg hc, extract_line_zero margin r rest hr]
    cases hx : extract_string [] margin rest margin with
    | error e => rfl
    | ok t => rfl

/-- The heredoc body handed to `extract_string`: the lines between the
sentinel line and the end-tag line, each with its terminating line break. -/
def joinLines (ls : List (List Char)) : List Char :=
  (ls.map (fun l => l ++ ['\n'])).flatten

theorem extract_join (margin : Nat) (ls : List (List Char))
    (h : ∀ l ∈ ls, '\n' ∉ l) :
    extract_string [] margin (joinLines ls) margin =
      .ok (joinLines (ls.map (fun l => consume_margin margin l))) := by
  induction ls with
  | nil => exact extract_of_consume_nil [] margin _ margin (consume_margin_nil margin)
  | cons l ls2 ih =>
    have hjoin : joinLines (l :: ls2) = l ++ '\n' :: joinLines ls2 := by
      simp [joinLines]
    rw [hjoin, extract_line_margin margin l _ (h l (List.mem_cons_self l ls2)),
      ih (fun x hx => h x (List.mem_cons_of_mem l hx))]
    simp only [joinLines, List.map_cons, List.flatten_cons, List.map_map]
    rw [List.append_assoc]
    rfl

/-- The margin `parse_heredoc` accumulates from the end-tag line's leading
whitespace (lexer.hpp lines 537-539): one column per space, `LEXER_TAB_WIDTH`
per tab. -/
def margin_of_ws (ws : List Char) : Nat :=
  ws.foldl (fun m c => m + (if c = ' ' then 1 else LEXER_TAB_WIDTH)) 0

/-- The trailing-line-break removal for an end tag carrying `-` (lexer.hpp
lines 592-600): pop a final newline, then a final carriage return. -/
def remove_final_break (text : List Char) : List Char :=
  let t1 := if text.getLast? = some '\n' then text.dropLast else text
  if t1.getLast? = some '\r' then t1.dropLast else t1

/-- The text computation of `parse_heredoc` (lexer.hpp lines 581-600): extract
the body with the margin applied only when the end tag carried `|`, then drop
the final line break when it carried `-`. -/
def heredoc_text (has_margin remove_break : Bool) (margin : Nat)
    (escapes : List Char) (body : List Char) : Except String (List Char) :=
  (extract_string escapes (if has_margin then margin else 0) body
      (if has_margin then margin else 0)).map
    (fun text => if remove_break then remove_final_break text else text)

/-- C7: for every heredoc without an escape list, the lexed text is the
concatenation of the lines between the sentinel line and the end-tag line,
where a `|` margin marker strips each line's leading whitespace up to the
marker's column (a space is one column, a tab `LEXER_TAB_WIDTH = 4`), and a
`-` removes the final line break of the text. -/
theorem heredoc_text_spec (ls : List (List Char)) (ws : List Char)
    (has_margin remove_break : Bool) (hls : ∀ l ∈ ls, '\n' ∉ l) :
    heredoc_text has_margin remove_break (margin_of_ws ws) [] (joinLines ls) =
      .ok ((fun text => if remove_break then remove_final_break text else text)
        (joinLines (if has_margin then
          ls.map (fun l => consume_margin (margin_of_ws ws) l) else ls))) := by
  unfold heredoc_text
  cases has_margin with
  | false =>
    simp only [Bool.false_eq_true, if_false]
    rw [extract_join 0 ls hls]
    have hid : ls.map (fun l => consume_margin 0 l) = ls := by
      simp [consume_margin_zero]
    rw [hid]
    rfl
  | true =>
    simp only [if_true]
    rw [extract_join (margin_of_ws ws) ls hls]
    rfl

/-- Witness for C7: a two-line heredoc with a two-space margin and `-`. -/
theorem heredoc_text_spec_witness :
    heredoc_text true true (margin_of_ws [' ', ' ']) []
        (joinLines [[' ', ' ', 'a'], ['\t', 'b']]) =
      .ok ['a', '\n', 'b'] := by
  rw [heredoc_text_spec [[' ', ' ', 'a'], ['\t', 'b']] [' ', ' '] true true (by decide)]
  rfl

end Heredoc
